import Mathlib

/-!
Verification of the `sync-replace` core of the `tsm-cli` repository
(`src/actions/sync-replace/sync-replace.ts`).

The TypeScript source is shallowly embedded: file content is a `String`,
`content.split('\n')` is modelled by `splitNl`, `Array.join('\n')` by
`joinNl`, JS `String.includes` / `indexOf` by `strIncludes` / `jsIndexOf`
(substring containment and first-occurrence index over the character list),
and JS `trim` / the regex `^(\s*)` by `jsTrim` / `getIndentation` using
`Char.isWhitespace`.  Loops with a cursor advancing through the line array
are modelled by structurally recursive functions over an explicit fuel
argument; each wrapper supplies fuel provably larger than the number of
loop iterations (the cursor strictly increases each iteration), so the
fuel-exhausted branch is unreachable for the wrapper calls.
-/

namespace TsmCli

/-- First index at which `pat` occurs as a contiguous sublist of `l`
    (JS `String.indexOf` over the character list); `none` when absent.
    The empty pattern occurs at index 0, as in JS. -/
def firstIdx (pat : List Char) : List Char → Option Nat
  | [] => if pat = [] then some 0 else none
  | c :: t => if pat.isPrefixOf (c :: t) then some 0 else (firstIdx pat t).map (· + 1)

/-- JS `line.includes(pat)`: `pat` occurs as a substring of `s`. -/
def strIncludes (s pat : String) : Bool :=
  (firstIdx pat.toList s.toList).isSome

/-- JS `line.indexOf(pat)`: first occurrence index, `-1` when absent. -/
def jsIndexOf (s pat : String) : Int :=
  match firstIdx pat.toList s.toList with
  | some n => (n : Int)
  | none => -1

/-- Split a character list at every occurrence of `c`
    (JS `String.split` with a one-character separator). -/
def splitChar (c : Char) : List Char → List (List Char)
  | [] => [[]]
  | x :: t =>
    match splitChar c t with
    | [] => [[]]
    | h :: r => if x = c then [] :: h :: r else (x :: h) :: r

/-- JS `Array.join` with a one-character separator. -/
def joinChar (c : Char) : List (List Char) → List Char
  | [] => []
  | [x] => x
  | x :: y :: t => x ++ c :: joinChar c (y :: t)

/-- JS `content.split('\n')`. -/
def splitNl (s : String) : List String :=
  (splitChar '\n' s.toList).map (fun l => String.mk l)

/-- JS `lines.join('\n')`. -/
def joinNl (l : List String) : String :=
  String.mk (joinChar '\n' (l.map String.toList))

/-- The character class of the JS regex `\s` / the trim set, approximated
    by Unicode whitespace. -/
def jsWhitespace (c : Char) : Bool := c.isWhitespace

/-- JS `String.trim`: strip leading and trailing whitespace. -/
def jsTrim (s : String) : String :=
  String.mk (((s.toList.dropWhile jsWhitespace).reverse.dropWhile jsWhitespace).reverse)

/-- `interface MatchResult` of sync-replace.ts. -/
structure MatchResult where
  file : String
  startLine : Nat
  endLine : Nat
  matchedText : String
  originalStartLine : Option Nat
  originalEndLine : Option Nat
deriving DecidableEq, Repr

/-- The inner `while (j < lines.length)` loop of `findMatches`: starting at
    index `j`, the index of the first line containing `e`; when no such line
    exists the loop falls off the end, returning `lines.length`.  Fuel
    `lines.length + 1` always suffices (the caller passes exactly that). -/
def scanEnd (lines : List String) (e : String) : Nat → Nat → Nat
  | 0, j => j
  | fuel + 1, j =>
    if h : j < lines.length then
      if strIncludes (lines.get ⟨j, h⟩) e then j else scanEnd lines e fuel (j + 1)
    else j

/-- The `while (i < lines.length)` loop of `findMatches` (sync-replace.ts).
    `i` is the 0-indexed cursor; recorded lines are 1-indexed as in the
    source.  Every iteration strictly increases `i`, so fuel
    `lines.length + 1` suffices from `i = 0`. -/
def findLoop (lines : List String) (sp : String) (ep : Option String) :
    Nat → Nat → List MatchResult
  | 0, _ => []
  | fuel + 1, i =>
    if h : i < lines.length then
      let line := lines.get ⟨i, h⟩
      if strIncludes line sp then
        match ep with
        | none =>
          ⟨"", i + 1, i + 1, line, none, none⟩ :: findLoop lines sp none fuel (i + 1)
        | some e =>
          if strIncludes line e ∧ jsIndexOf line e > jsIndexOf line sp then
            ⟨"", i + 1, i + 1, line, none, none⟩ :: findLoop lines sp (some e) fuel (i + 1)
          else
            let j := scanEnd lines e (lines.length + 1) (i + 1)
            if j < lines.length then
              ⟨"", i + 1, j + 1, joinNl ((lines.drop i).take (j + 1 - i)), none, none⟩ ::
                findLoop lines sp (some e) fuel (j + 1)
            else if strIncludes line e then
              ⟨"", i + 1, i + 1, joinNl (lines.drop i), none, none⟩ ::
                findLoop lines sp (some e) fuel (j + 1)
            else
              findLoop lines sp (some e) fuel (i + 1)
      else
        findLoop lines sp ep fuel (i + 1)
    else []

/-- `findMatches(content, startPattern, endPattern)` of sync-replace.ts. -/
def findMatches (content sp : String) (ep : Option String) : List MatchResult :=
  findLoop (splitNl content) sp ep ((splitNl content).length + 1) 0

lemma scanEnd_ge (lines : List String) (e : String) :
    ∀ fuel j, j ≤ scanEnd lines e fuel j := by
  intro fuel
  induction fuel with
  | zero => intro j; simp [scanEnd]
  | succ fuel ih =>
    intro j
    simp only [scanEnd]
    split
    · split
      · exact Nat.le_refl j
      · exact Nat.le_of_succ_le (ih (j + 1))
    · exact Nat.le_refl j

lemma findLoop_mem_bound (lines : List String) (sp : String) (ep : Option String) :
    ∀ fuel i, ∀ m ∈ findLoop lines sp ep fuel i,
      i < m.startLine ∧ m.startLine ≤ m.endLine := by
  cases ep with
  | none =>
    intro fuel
    induction fuel with
    | zero => intro i m hm; simp [findLoop] at hm
    | succ fuel ih =>
      intro i m hm
      simp only [findLoop] at hm
      split at hm
      next h =>
        split at hm
        next hsp =>
          rcases List.mem_cons.mp hm with rfl | hm
          · exact ⟨Nat.lt_succ_self i, Nat.le_refl _⟩
          · have := ih (i + 1) m hm
            omega
        next hsp =>
          have := ih (i + 1) m hm
          omega
      next h => simp at hm
  | some e =>
    intro fuel
    induction fuel with
    | zero => intro i m hm; simp [findLoop] at hm
    | succ fuel ih =>
      intro i m hm
      simp only [findLoop] at hm
      split at hm
      next h =>
        split at hm
        next hsp =>
          split at hm
          next hclose =>
            rcases List.mem_cons.mp hm with rfl | hm
            · exact ⟨Nat.lt_succ_self i, Nat.le_refl _⟩
            · have := ih (i + 1) m hm
              omega
          next hclose =>
            have hjge := scanEnd_ge lines e (lines.length + 1) (i + 1)
            split at hm
            next hj =>
              rcases List.mem_cons.mp hm with rfl | hm
              · exact ⟨Nat.lt_succ_self i, by dsimp only; omega⟩
              · have := ih _ m hm
                omega
            next hj =>
              split at hm
              next hie =>
                rcases List.mem_cons.mp hm with rfl | hm
                · exact ⟨Nat.lt_succ_self i, Nat.le_refl _⟩
                · have := ih _ m hm
                  omega
              next hie =>
                have := ih (i + 1) m hm
                omega
        next hsp =>
          have := ih (i + 1) m hm
          omega
      next h => simp at hm

lemma findLoop_pairwise (lines : List String) (sp : String) (ep : Option String) :
    ∀ fuel i, (findLoop lines sp ep fuel i).Pairwise
      (fun a b => a.endLine < b.startLine) := by
  cases ep with
  | none =>
    intro fuel
    induction fuel with
    | zero => intro i; simp [findLoop]
    | succ fuel ih =>
      intro i
      simp only [findLoop]
      split
      next h =>
        split
        next hsp =>
          refine List.Pairwise.cons ?_ (ih (i + 1))
          intro b hb
          have := findLoop_mem_bound lines sp none fuel (i + 1) b hb
          dsimp only
          omega
        next hsp => exact ih (i + 1)
      next h => simp
  | some e =>
    intro fuel
    induction fuel with
    | zero => intro i; simp [findLoop]
    | succ fuel ih =>
      intro i
      simp only [findLoop]
      split
      next h =>
        split
        next hsp =>
          split
          next hclose =>
            refine List.Pairwise.cons ?_ (ih (i + 1))
            intro b hb
            have := findLoop_mem_bound lines sp (some e) fuel (i + 1) b hb
            dsimp only
            omega
          next hclose =>
            have hjge := scanEnd_ge lines e (lines.length + 1) (i + 1)
            split
            next hj =>
              refine List.Pairwise.cons ?_ (ih _)
              intro b hb
              have := findLoop_mem_bound lines sp (some e) fuel _ b hb
              dsimp only
              omega
            next hj =>
              split
              next hie =>
                refine List.Pairwise.cons ?_ (ih _)
                intro b hb
                have := findLoop_mem_bound lines sp (some e) fuel _ b hb
                dsimp only
                omega
              next hie => exact ih (i + 1)
        next hsp => exact ih (i + 1)
      next h => simp

end TsmCli

namespace TsmCli

/-- C1: for every file content and start pattern (with or without an end
    pattern), the spans returned by `findMatches` satisfy
    `startLine ≤ endLine`, are produced in strictly ascending line order,
    and no two returned spans have intersecting `startLine..endLine`
    ranges. -/
theorem findMatches_span_invariants (content sp : String) (ep : Option String) :
    (∀ m ∈ findMatches content sp ep, m.startLine ≤ m.endLine) ∧
    (findMatches content sp ep).Pairwise (fun a b => a.startLine < b.startLine) ∧
    (findMatches content sp ep).Pairwise
      (fun a b => a.endLine < b.startLine ∨ b.endLine < a.startLine) := by
  have hbound := findLoop_mem_bound (splitNl content) sp ep ((splitNl content).length + 1) 0
  have hpw := findLoop_pairwise (splitNl content) sp ep ((splitNl content).length + 1) 0
  refine ⟨fun m hm => (hbound m hm).2, ?_, ?_⟩
  · exact hpw.imp_of_mem (fun {a b} ha _ hab =>
      Nat.lt_of_le_of_lt (hbound a ha).2 hab)
  · exact hpw.imp (fun hab => Or.inl hab)

/-- Witness for C1 at a concrete file: the first returned span of a
    two-match scan satisfies the bound. -/
theorem findMatches_span_invariants_witness :
    (⟨"", 1, 1, "a x", none, none⟩ : MatchResult) ∈ findMatches "a x\nb\nc x" "x" none ∧
    (1 : Nat) ≤ 1 :=
  ⟨by decide,
   (findMatches_span_invariants "a x\nb\nc x" "x" none).1
     ⟨"", 1, 1, "a x", none, none⟩ (by decide)⟩

lemma scanEnd_not_found (lines : List String) (e : String) :
    ∀ fuel j, lines.length ≤ j + fuel →
      (∀ k (hk : k < lines.length), j ≤ k →
        strIncludes (lines.get ⟨k, hk⟩) e = false) →
      lines.length ≤ scanEnd lines e fuel j := by
  intro fuel
  induction fuel with
  | zero => intro j hle _; simpa [scanEnd] using by omega
  | succ fuel ih =>
    intro j hle hno
    simp only [scanEnd]
    split
    next h =>
      rw [hno j h (Nat.le_refl j)]
      simp only [Bool.false_eq_true, if_false]
      exact ih (j + 1) (by omega) (fun k hk hjk => hno k hk (by omega))
    next h => omega

/-- C2: when a line contains the start pattern, the same-line early-close
    rule does not apply, and no line from that line to end of file contains
    the end pattern, the finder records no match for that start line and
    scanning resumes at the line after it. -/
theorem findLoop_unterminated (lines : List String) (sp ep : String) (fuel i : Nat)
    (hi : i < lines.length)
    (hstart : strIncludes (lines.get ⟨i, hi⟩) sp = true)
    (hnoclose : ¬(strIncludes (lines.get ⟨i, hi⟩) ep = true ∧
        jsIndexOf (lines.get ⟨i, hi⟩) ep > jsIndexOf (lines.get ⟨i, hi⟩) sp))
    (hnoend : ∀ k (hk : k < lines.length), i ≤ k →
        strIncludes (lines.get ⟨k, hk⟩) ep = false) :
    findLoop lines sp (some ep) (fuel + 1) i = findLoop lines sp (some ep) fuel (i + 1) ∧
    ∀ m ∈ findLoop lines sp (some ep) (fuel + 1) i, m.startLine ≠ i + 1 := by
  have hj : lines.length ≤ scanEnd lines ep (lines.length + 1) (i + 1) :=
    scanEnd_not_found lines ep (lines.length + 1) (i + 1) (by omega)
      (fun k hk hik => hnoend k hk (by omega))
  have heq : findLoop lines sp (some ep) (fuel + 1) i =
      findLoop lines sp (some ep) fuel (i + 1) := by
    simp only [findLoop]
    rw [dif_pos hi, if_pos hstart, if_neg hnoclose, if_neg (Nat.not_lt.mpr hj),
      hnoend i hi (Nat.le_refl i)]
    simp
  refine ⟨heq, ?_⟩
  rw [heq]
  intro m hm
  have := findLoop_mem_bound lines sp (some ep) fuel (i + 1) m hm
  omega

/-- Witness for C2: a start line whose end pattern never appears produces
    the same scan as restarting just after it. -/
theorem findLoop_unterminated_witness :
    findLoop ["a s b", "c"] "s" (some "e") 3 0 = findLoop ["a s b", "c"] "s" (some "e") 2 1 :=
  (findLoop_unterminated ["a s b", "c"] "s" "e" 2 0 (by decide) (by decide)
    (by decide) (by decide)).1

/-- JS `String.replaceAll` scan for a non-empty pattern: replace each
    occurrence left to right, continuing after the inserted replacement.
    Each step consumes at least one character, so fuel `s.length`
    suffices. -/
def replList (pat rep : List Char) : Nat → List Char → List Char
  | _, [] => []
  | 0, s => s
  | fuel + 1, c :: t =>
    if pat.isPrefixOf (c :: t) then rep ++ replList pat rep fuel ((c :: t).drop pat.length)
    else c :: replList pat rep fuel t

/-- JS `line.replaceAll(pat, rep)`: literal (non-regex) global
    substitution; the empty pattern matches at every position, as in JS. -/
def jsReplaceAll (s pat rep : String) : String :=
  if pat.toList = [] then
    String.mk (rep.toList ++ s.toList.foldr (fun c acc => c :: (rep.toList ++ acc)) [])
  else String.mk (replList pat.toList rep.toList s.toList.length s.toList)

/-- `getIndentation(line)` of sync-replace.ts: the capture of `^(\s*)`. -/
def getIndentation (line : String) : String :=
  String.mk (line.toList.takeWhile jsWhitespace)

/-- `applyIndentation(text, indent)` of sync-replace.ts: compute the
    minimum leading-whitespace length over the non-empty lines of `text`
    (`0` when there are none, the `Infinity` guard), slice that many
    characters off every line and prefix every line with `indent`. -/
def applyIndentation (text indent : String) : String :=
  let lines := splitNl text
  let nonEmptyLines := lines.filter (fun l => jsTrim l != "")
  let minIndent :=
    match nonEmptyLines.map (fun l => (l.toList.takeWhile jsWhitespace).length) with
    | [] => 0
    | x :: xs => xs.foldl Nat.min x
  joinNl (lines.map (fun line => indent ++ String.mk (line.toList.drop minIndent)))

/-- Stable insertion used to model the JS stable
    `[...matches].sort((a, b) => a.startLine - b.startLine)`. -/
def insertByStart (m : MatchResult) : List MatchResult → List MatchResult
  | [] => [m]
  | x :: t => if m.startLine ≤ x.startLine then m :: x :: t else x :: insertByStart m t

/-- Stable sort of the match array by `startLine`. -/
def sortByStartLine : List MatchResult → List MatchResult
  | [] => []
  | m :: t => insertByStart m (sortByStartLine t)

/-- The `while (i < lines.length)` loop of `applyReplacements`
    (sync-replace.ts).  `i` is the 0-indexed cursor; `ms` is the not yet
    consumed suffix of the sorted match array (the JS loop reads only
    `sortedMatches[matchIndex]` and increments `matchIndex`).  JS `-1`
    index arithmetic under `Math.max(0, origStartLine - 1)` coincides with
    saturating `Nat` subtraction; the effective boundary comparison is done
    in `Int` as in JS.  Every iteration advances the cursor or consumes a
    match, so the wrapper's fuel suffices. -/
def applyLoop (lines : List String) (replacement : Option String)
    (excludeStart excludeEnd inl : Bool) (startPattern : String) :
    Nat → Nat → List MatchResult → List String
  | 0, _, _ => []
  | fuel + 1, i, ms =>
    if h : i < lines.length then
      match ms with
      | m :: rest =>
        if i + 1 = m.startLine then
          let origStart := m.originalStartLine.getD m.startLine
          let origEnd := m.originalEndLine.getD m.endLine
          if inl = true ∧ origStart = origEnd then
            jsReplaceAll (lines.getD (origStart - 1) "") startPattern (replacement.getD "") ::
              applyLoop lines replacement excludeStart excludeEnd inl startPattern fuel
                m.endLine rest
          else
            ((if excludeStart then [lines.getD (origStart - 1) ""] else []) ++
             (match replacement with
              | some rep =>
                let effStart : Int :=
                  if excludeStart then (origStart : Int) + 1 else (origStart : Int)
                let effEnd : Int :=
                  if excludeEnd then (origEnd : Int) - 1 else (origEnd : Int)
                if effStart ≤ effEnd then
                  [applyIndentation rep (getIndentation
                    (lines.getD (if excludeStart then origStart else origStart - 1) ""))]
                else []
              | none => []) ++
             (if excludeEnd = true ∧ origStart < origEnd then
                [lines.getD (origEnd - 1) ""] else [])) ++
            applyLoop lines replacement excludeStart excludeEnd inl startPattern fuel
              m.endLine rest
        else
          lines.get ⟨i, h⟩ ::
            applyLoop lines replacement excludeStart excludeEnd inl startPattern fuel
              (i + 1) (m :: rest)
      | [] =>
        lines.get ⟨i, h⟩ ::
          applyLoop lines replacement excludeStart excludeEnd inl startPattern fuel (i + 1) []
    else []

/-- `applyReplacements(content, matches, replacement, excludeStart,
    excludeEnd, inline, startPattern)` of sync-replace.ts.  The fuel bound
    covers the worst case of the loop: at most `matches.length` match
    consumptions and, between consecutive ones, at most
    `lines.length + 1` cursor advances. -/
def applyReplacements (content : String) (matchList : List MatchResult)
    (replacement : Option String) (excludeStart excludeEnd inl : Bool)
    (startPattern : String) : String :=
  let lines := splitNl content
  let sorted := sortByStartLine matchList
  joinNl (applyLoop lines replacement excludeStart excludeEnd inl startPattern
    ((lines.length + 2) * (sorted.length + 1)) 0 sorted)

lemma applyLoop_succ_out (lines : List String) (rep : Option String) (es ee inl : Bool)
    (sp : String) (fuel i : Nat) (ms : List MatchResult) (h : ¬ i < lines.length) :
    applyLoop lines rep es ee inl sp (fuel + 1) i ms = [] := by
  simp [applyLoop, h]

lemma applyLoop_succ_nil (lines : List String) (rep : Option String) (es ee inl : Bool)
    (sp : String) (fuel i : Nat) (h : i < lines.length) :
    applyLoop lines rep es ee inl sp (fuel + 1) i [] =
      lines.get ⟨i, h⟩ :: applyLoop lines rep es ee inl sp fuel (i + 1) [] := by
  simp [applyLoop, h]

lemma applyLoop_succ_skip (lines : List String) (rep : Option String) (es ee inl : Bool)
    (sp : String) (fuel i : Nat) (m : MatchResult) (rest : List MatchResult)
    (h : i < lines.length) (hne : ¬ i + 1 = m.startLine) :
    applyLoop lines rep es ee inl sp (fuel + 1) i (m :: rest) =
      lines.get ⟨i, h⟩ :: applyLoop lines rep es ee inl sp fuel (i + 1) (m :: rest) := by
  simp [applyLoop, h, hne]

lemma applyLoop_succ_replace_plain (lines : List String) (r sp : String)
    (fuel i : Nat) (m : MatchResult) (rest : List MatchResult)
    (h : i < lines.length) (hm : i + 1 = m.startLine)
    (hoo : m.originalStartLine.getD m.startLine ≤ m.originalEndLine.getD m.endLine) :
    applyLoop lines (some r) false false false sp (fuel + 1) i (m :: rest) =
      applyIndentation r (getIndentation
          (lines.getD (m.originalStartLine.getD m.startLine - 1) "")) ::
        applyLoop lines (some r) false false false sp fuel m.endLine rest := by
  have hoo2 : m.originalStartLine.getD (i + 1) ≤ m.originalEndLine.getD m.endLine := by
    rw [hm]; exact hoo
  simp [applyLoop, h, ← hm, hoo2]

lemma applyLoop_succ_delete (lines : List String) (sp : String)
    (fuel i : Nat) (m : MatchResult) (rest : List MatchResult)
    (h : i < lines.length) (hm : i + 1 = m.startLine) :
    applyLoop lines none false false false sp (fuel + 1) i (m :: rest) =
      applyLoop lines none false false false sp fuel m.endLine rest := by
  simp [applyLoop, h, ← hm]

lemma applyLoop_nil (lines : List String) (rep : Option String) (es ee inl : Bool)
    (sp : String) :
    ∀ fuel i, lines.length ≤ i + fuel →
      applyLoop lines rep es ee inl sp fuel i [] = lines.drop i := by
  intro fuel
  induction fuel with
  | zero =>
    intro i h
    rw [List.drop_eq_nil_of_le (by omega)]
    rfl
  | succ fuel ih =>
    intro i h
    by_cases hlt : i < lines.length
    · rw [applyLoop_succ_nil lines rep es ee inl sp fuel i hlt, ih (i + 1) (by omega)]
      exact (List.drop_eq_getElem_cons hlt).symm
    · rw [applyLoop_succ_out lines rep es ee inl sp fuel i [] hlt,
        List.drop_eq_nil_of_le (by omega)]

lemma applyLoop_walk (lines : List String) (rep : Option String) (es ee inl : Bool)
    (sp : String) (m : MatchResult) (rest : List MatchResult) (n : Nat)
    (hms : m.startLine = n + 1) (hn : n < lines.length) :
    ∀ d fuel i, i + d = n →
      applyLoop lines rep es ee inl sp (fuel + d) i (m :: rest) =
        (lines.drop i).take d ++ applyLoop lines rep es ee inl sp fuel n (m :: rest) := by
  intro d
  induction d with
  | zero =>
    intro fuel i hi
    have : i = n := by omega
    subst this
    simp
  | succ d ih =>
    intro fuel i hi
    have hlt : i < lines.length := by omega
    have hne : ¬ i + 1 = m.startLine := by omega
    rw [show fuel + (d + 1) = (fuel + d) + 1 from rfl,
      applyLoop_succ_skip lines rep es ee inl sp (fuel + d) i m rest hlt hne,
      ih fuel (i + 1) (by omega), List.drop_eq_getElem_cons hlt, List.take_succ_cons]
    rfl

end TsmCli

namespace TsmCli

/-- The output the C3 spec sentence describes, stated in the spec's words:
    the replacement is re-indented to match the indentation of *the line
    preceding* the (adjusted) start of the span — for an unexcluded span
    starting at 1-indexed `startLine`, the line at 0-index
    `startLine - 2`. -/
def specPrecedingIndentResult (content : String) (m : MatchResult) (r : String) : String :=
  let lines := splitNl content
  joinNl (lines.take (m.startLine - 1) ++
    applyIndentation r (getIndentation (lines.getD (m.startLine - 1 - 1) "")) ::
      lines.drop m.endLine)

/-- C3 counterexample: for the file `"  a\n    foo"` with the single
    approved span covering line 2 and replacement `"bar"`, the code indents
    the replacement with the span's own first line (4 spaces), not with the
    line preceding the start (2 spaces) as the claim states. -/
theorem applyReplacements_indent_source_counterexample :
    applyReplacements "  a\n    foo" [⟨"", 2, 2, "    foo", none, none⟩]
        (some "bar") false false false "" ≠
      specPrecedingIndentResult "  a\n    foo" ⟨"", 2, 2, "    foo", none, none⟩ "bar" := by
  decide

/-- C3 (amended): for an approved non-inline span applied with a defined
    replacement text (no boundary exclusion), `applyReplacements` inserts
    the replacement re-indented to match the indentation of the *original
    start line of the span itself* (0-indexed `origStart - 1`), not the
    line preceding it: the minimum common leading whitespace across the
    non-empty replacement lines is stripped and each replacement line is
    prefixed with that line's leading whitespace (`applyIndentation`). -/
theorem applyReplacements_indent_source (content : String) (m : MatchResult)
    (r sp : String) (n : Nat)
    (hstart : m.startLine = n + 1) (hn : n < (splitNl content).length)
    (_hse : m.startLine ≤ m.endLine)
    (hoo : m.originalStartLine.getD m.startLine ≤ m.originalEndLine.getD m.endLine) :
    applyReplacements content [m] (some r) false false false sp =
      joinNl ((splitNl content).take n ++
        applyIndentation r (getIndentation
            ((splitNl content).getD (m.originalStartLine.getD m.startLine - 1) "")) ::
          (splitNl content).drop m.endLine) := by
  simp only [applyReplacements]
  have hsort : sortByStartLine [m] = [m] := rfl
  rw [hsort]
  set lines := splitNl content with hlines
  set F := (lines.length + 2) * (([m] : List MatchResult).length + 1) with hF
  have hFlin : F = (lines.length + 2) * 2 := by
    simp only [hF, List.length_cons, List.length_nil]
  have hFn : F = (F - n) + n := by omega
  rw [hFn, applyLoop_walk lines (some r) false false false sp m [] n hstart hn n
    (F - n) 0 (by omega)]
  have hF1 : F - n = (F - n - 1) + 1 := by omega
  rw [hF1, applyLoop_succ_replace_plain lines r sp (F - n - 1) n m [] hn (by omega) hoo]
  rw [applyLoop_nil lines (some r) false false false sp (F - n - 1) m.endLine
    (by omega)]
  rw [List.drop_zero]

/-- Witness for the amended C3: the counterexample file, where the inserted
    line carries the 4-space indentation of the matched line itself. -/
theorem applyReplacements_indent_source_witness :
    applyReplacements "  a\n    foo" [⟨"", 2, 2, "    foo", none, none⟩]
        (some "bar") false false false "" =
      joinNl ((splitNl "  a\n    foo").take 1 ++
        applyIndentation "bar" (getIndentation
            ((splitNl "  a\n    foo").getD 1 "")) ::
          (splitNl "  a\n    foo").drop 2) :=
  applyReplacements_indent_source "  a\n    foo" ⟨"", 2, 2, "    foo", none, none⟩
    "bar" "" 1 rfl (by decide) (by decide) (by decide)

lemma mk_toList (s : String) : String.mk s.toList = s := by cases s; rfl

lemma toList_eq_nil_iff (s : String) : s.toList = [] ↔ s = "" := by
  rw [String.ext_iff]; rfl

lemma splitChar_ne_nil (c : Char) : ∀ l, splitChar c l ≠ [] := by
  intro l
  induction l with
  | nil => simp [splitChar]
  | cons x t ih =>
    cases hsp : splitChar c t with
    | nil => exact absurd hsp ih
    | cons h r =>
      simp only [splitChar, hsp]
      split <;> simp

lemma splitChar_no_sep (c : Char) : ∀ x, c ∉ x → splitChar c x = [x] := by
  intro x
  induction x with
  | nil => intro _; rfl
  | cons d t ih =>
    intro hmem
    have hd : ¬ d = c := fun h => hmem (by rw [h]; exact List.mem_cons_self c t)
    have ht : c ∉ t := fun h => hmem (List.mem_cons_of_mem d h)
    simp only [splitChar, ih ht]
    rw [if_neg hd]

lemma splitChar_sep_append (c : Char) :
    ∀ x r, c ∉ x → splitChar c (x ++ c :: r) = x :: splitChar c r := by
  intro x
  induction x with
  | nil =>
    intro r _
    cases hsp : splitChar c r with
    | nil => exact absurd hsp (splitChar_ne_nil c r)
    | cons h rr => simp [splitChar, hsp]
  | cons d t ih =>
    intro r hmem
    have hd : ¬ d = c := fun h => hmem (by rw [h]; exact List.mem_cons_self c t)
    have ht : c ∉ t := fun h => hmem (List.mem_cons_of_mem d h)
    simp only [List.cons_append, splitChar, List.append_eq, ih r ht]
    rw [if_neg hd]

lemma splitChar_joinChar (c : Char) :
    ∀ ls, ls ≠ [] → (∀ x ∈ ls, c ∉ x) → splitChar c (joinChar c ls) = ls := by
  intro ls
  induction ls with
  | nil => intro h _; exact absurd rfl h
  | cons x t ih =>
    intro _ hmem
    cases t with
    | nil =>
      simp only [joinChar]
      exact splitChar_no_sep c x (hmem x (List.mem_cons_self x []))
    | cons y tt =>
      simp only [joinChar]
      rw [splitChar_sep_append c x (joinChar c (y :: tt)) (hmem x (List.mem_cons_self _ _))]
      rw [ih (by simp) (fun z hz => hmem z (List.mem_cons_of_mem x hz))]

lemma mem_splitChar_not_mem (c : Char) :
    ∀ l x, x ∈ splitChar c l → c ∉ x := by
  intro l
  induction l with
  | nil =>
    intro x hx
    simp [splitChar] at hx
    simp [hx]
  | cons d t ih =>
    intro x hx
    cases hsp : splitChar c t with
    | nil => exact absurd hsp (splitChar_ne_nil c t)
    | cons h r =>
      simp only [splitChar, hsp] at hx
      by_cases hd : d = c
      · rw [if_pos hd] at hx
        rcases List.mem_cons.mp hx with rfl | hx
        · simp
        · exact ih x (by rw [hsp]; exact hx)
      · rw [if_neg hd] at hx
        rcases List.mem_cons.mp hx with rfl | hx
        · intro hc
          rcases List.mem_cons.mp hc with rfl | hc
          · exact hd rfl
          · exact ih h (by rw [hsp]; exact List.mem_cons_self h r) hc
        · exact ih x (by rw [hsp]; exact List.mem_cons_of_mem h hx)

lemma splitNl_mem_no_nl (s : String) : ∀ l ∈ splitNl s, ('\n' : Char) ∉ l.toList := by
  intro l hl
  simp only [splitNl] at hl
  obtain ⟨x, hx, rfl⟩ := List.mem_map.mp hl
  exact mem_splitChar_not_mem '\n' s.toList x hx

lemma splitNl_joinNl (L : List String) (hne : L ≠ [])
    (hnl : ∀ s ∈ L, ('\n' : Char) ∉ s.toList) : splitNl (joinNl L) = L := by
  simp only [splitNl, joinNl]
  rw [show (String.mk (joinChar '\n' (L.map String.toList))).toList =
      joinChar '\n' (L.map String.toList) from rfl]
  rw [splitChar_joinChar '\n' (L.map String.toList) (by simpa using hne)
    (fun x hx => by
      obtain ⟨s, hs, rfl⟩ := List.mem_map.mp hx
      exact hnl s hs)]
  rw [List.map_map]
  simp [Function.comp_def, mk_toList]

lemma findLoop_no_start (L : List String) (sp : String)
    (h : ∀ l ∈ L, strIncludes l sp = false) :
    ∀ fuel i, findLoop L sp none fuel i = [] := by
  intro fuel
  induction fuel with
  | zero => intro i; rfl
  | succ fuel ih =>
    intro i
    simp only [findLoop]
    split
    next hlt =>
      rw [h (L.get ⟨i, hlt⟩) (List.get_mem L i hlt)]
      simp only [Bool.false_eq_true, if_false]
      exact ih (i + 1)
    next hlt => rfl

lemma findLoop_delete_roundtrip (lines : List String) (sp : String) :
    ∀ fuelF i fuelA, lines.length ≤ i + fuelF →
      lines.length + (findLoop lines sp none fuelF i).length ≤ i + fuelA →
      applyLoop lines none false false false sp fuelA i (findLoop lines sp none fuelF i) =
        (lines.drop i).filter (fun l => !(strIncludes l sp)) := by
  intro fuelF
  induction fuelF with
  | zero =>
    intro i fuelA hF hA
    simp only [findLoop] at hA ⊢
    rw [applyLoop_nil lines none false false false sp fuelA i (by simpa using hA),
      List.drop_eq_nil_of_le (show lines.length ≤ i by omega)]
    rfl
  | succ fuelF ih =>
    intro i fuelA hF hA
    by_cases hlt : i < lines.length
    · by_cases hsp : strIncludes (lines.get ⟨i, hlt⟩) sp = true
      · have hunfold : findLoop lines sp none (fuelF + 1) i =
            ⟨"", i + 1, i + 1, lines.get ⟨i, hlt⟩, none, none⟩ ::
              findLoop lines sp none fuelF (i + 1) := by
          simp only [findLoop]
          rw [dif_pos hlt, if_pos hsp]
        rw [hunfold] at hA ⊢
        obtain ⟨fuelA', rfl⟩ : ∃ fuelA', fuelA = fuelA' + 1 := by
          rcases fuelA with _ | fA
          · exfalso; simp at hA; omega
          · exact ⟨fA, rfl⟩
        rw [applyLoop_succ_delete lines sp fuelA' i
          ⟨"", i + 1, i + 1, lines.get ⟨i, hlt⟩, none, none⟩ _ hlt rfl]
        rw [List.drop_eq_getElem_cons hlt, List.filter_cons]
        have hfalse : (!(strIncludes lines[i] sp)) = false := by
          simp only [List.get_eq_getElem] at hsp
          simp [hsp]
        rw [hfalse]
        simp only [Bool.false_eq_true, if_false]
        exact ih (i + 1) fuelA' (by omega) (by simp at hA ⊢; omega)
      · have hunfold : findLoop lines sp none (fuelF + 1) i =
            findLoop lines sp none fuelF (i + 1) := by
          simp only [findLoop]
          rw [dif_pos hlt, if_neg hsp]
        rw [hunfold] at hA ⊢
        obtain ⟨fuelA', rfl⟩ : ∃ fuelA', fuelA = fuelA' + 1 := by
          rcases fuelA with _ | fA
          · exfalso; omega
          · exact ⟨fA, rfl⟩
        have hstep : applyLoop lines none false false false sp (fuelA' + 1) i
            (findLoop lines sp none fuelF (i + 1)) =
            lines.get ⟨i, hlt⟩ :: applyLoop lines none false false false sp fuelA' (i + 1)
              (findLoop lines sp none fuelF (i + 1)) := by
          cases hms : findLoop lines sp none fuelF (i + 1) with
          | nil => exact applyLoop_succ_nil lines none false false false sp fuelA' i hlt
          | cons m rest =>
            refine applyLoop_succ_skip lines none false false false sp fuelA' i m rest hlt ?_
            have := findLoop_mem_bound lines sp none fuelF (i + 1) m
              (hms ▸ List.mem_cons_self m rest)
            omega
        rw [hstep, List.drop_eq_getElem_cons hlt, List.filter_cons]
        have htrue : (!(strIncludes lines[i] sp)) = true := by
          simp only [List.get_eq_getElem] at hsp
          simp [Bool.not_eq_true] at hsp ⊢
          exact hsp
        rw [htrue]
        simp only [if_true]
        rw [ih (i + 1) fuelA' (by omega) (by omega)]
        rfl
    · have hempty : findLoop lines sp none (fuelF + 1) i = [] := by
        simp only [findLoop]
        rw [dif_neg hlt]
      rw [hempty] at hA ⊢
      rw [applyLoop_nil lines none false false false sp fuelA i (by simpa using hA),
        List.drop_eq_nil_of_le (show lines.length ≤ i by omega)]
      rfl

lemma sortByStartLine_eq_self :
    ∀ l : List MatchResult, l.Pairwise (fun a b => a.startLine < b.startLine) →
      sortByStartLine l = l := by
  intro l
  induction l with
  | nil => intro _; rfl
  | cons m t ih =>
    intro hpw
    simp only [sortByStartLine, ih (List.Pairwise.sublist (List.sublist_cons_self m t) hpw)]
    cases t with
    | nil => rfl
    | cons x tt =>
      simp only [insertByStart]
      rw [if_pos (Nat.le_of_lt (List.rel_of_pairwise_cons hpw (List.mem_cons_self x tt)))]

lemma findLoop_pairwise_start (lines : List String) (sp : String) (ep : Option String)
    (fuel i : Nat) :
    (findLoop lines sp ep fuel i).Pairwise (fun a b => a.startLine < b.startLine) := by
  refine (findLoop_pairwise lines sp ep fuel i).imp_of_mem (fun {a b} ha _ hab => ?_)
  exact Nat.lt_of_le_of_lt (findLoop_mem_bound lines sp ep fuel i a ha).2 hab

end TsmCli

namespace TsmCli

/-- C7 counterexample: with the empty start pattern, deleting every
    matched line of `"x"` leaves the empty file, whose single empty line
    still contains the empty pattern, so re-finding yields a match. -/
theorem deletion_roundtrip_counterexample :
    findMatches (applyReplacements "x" (findMatches "x" "" none) none false false false "")
      "" none ≠ [] := by
  decide

/-- C7 (amended): for every file content and *non-empty* start pattern with
    no end pattern, deleting all spans found by `findMatches`
    (`replacement = none`, non-inline, no boundary exclusions) via
    `applyReplacements` and re-running `findMatches` with the same start
    pattern yields zero matches. -/
theorem deletion_roundtrip (content sp : String) (hsp : sp ≠ "") :
    findMatches
      (applyReplacements content (findMatches content sp none) none false false false sp)
      sp none = [] := by
  have happly : applyReplacements content (findMatches content sp none)
      none false false false sp =
      joinNl ((splitNl content).filter (fun l => !(strIncludes l sp))) := by
    simp only [applyReplacements, findMatches]
    set lines := splitNl content with hlines
    set ms := findLoop lines sp none (lines.length + 1) 0 with hms
    rw [sortByStartLine_eq_self ms (findLoop_pairwise_start lines sp none _ 0)]
    rw [findLoop_delete_roundtrip lines sp (lines.length + 1) 0
      ((lines.length + 2) * (ms.length + 1)) (by omega)
      (by
        calc lines.length + ms.length ≤ lines.length + 2 * ms.length + 2 := by omega
          _ ≤ lines.length * ms.length + (lines.length + 2 * ms.length + 2) :=
              Nat.le_add_left _ _
          _ = (lines.length + 2) * (ms.length + 1) := by ring
          _ = 0 + (lines.length + 2) * (ms.length + 1) := by omega)]
    rw [List.drop_zero]
  rw [happly]
  have hnostart : ∀ l ∈ splitNl (joinNl
      ((splitNl content).filter (fun l => !(strIncludes l sp)))),
      strIncludes l sp = false := by
    cases hfe : (splitNl content).filter (fun l => !(strIncludes l sp)) with
    | nil =>
      intro l hl
      have h1 : splitNl (joinNl []) = [String.mk []] := rfl
      rw [h1] at hl
      rcases List.mem_cons.mp hl with rfl | hl
      · simp only [strIncludes]
        rw [show (String.mk []).toList = [] from rfl]
        simp only [firstIdx]
        rw [if_neg (fun hc => hsp ((toList_eq_nil_iff sp).mp hc))]
        rfl
      · simp at hl
    | cons f ft =>
      intro l hl
      rw [splitNl_joinNl (f :: ft) (by simp)
        (fun s hs => splitNl_mem_no_nl content s
          (List.mem_of_mem_filter (p := fun l => !(strIncludes l sp))
            (by rw [hfe]; exact hs)))] at hl
      have hmem : l ∈ (splitNl content).filter (fun l => !(strIncludes l sp)) := by
        rw [hfe]; exact hl
      have := List.of_mem_filter hmem
      simpa using this
  simp only [findMatches]
  exact findLoop_no_start _ sp hnostart _ 0

/-- Witness for the amended C7 on a concrete file. -/
theorem deletion_roundtrip_witness :
    findMatches
      (applyReplacements "a\nfoo b\nc" (findMatches "a\nfoo b\nc" "foo" none)
        none false false false "foo")
      "foo" none = [] :=
  deletion_roundtrip "a\nfoo b\nc" "foo" (by decide)

/-- `MAX_HISTORY` of sync-replace.ts. -/
def MAX_HISTORY : Nat := 20

/-- `addToHistory(entries, value)` of sync-replace.ts:
    return `entries` unchanged when the value is blank (`!value.trim()`) or
    already at the front (`entries[0] === value`, where `entries[0]` of an
    empty array is `undefined` and never equals a string); otherwise put the
    value in front of the other entries (any older occurrence removed) and
    truncate to `MAX_HISTORY`. -/
def addToHistory (entries : List String) (value : String) : List String :=
  if jsTrim value = "" ∨ entries.head? = some value then entries
  else (value :: entries.filter (fun e => e != value)).take MAX_HISTORY

lemma addToHistory_not_mem (entries : List String) (v : String) (hv : jsTrim v ≠ "")
    (hd : entries.head? ≠ some v) (hm : v ∉ entries) :
    addToHistory entries v = (v :: entries).take MAX_HISTORY := by
  unfold addToHistory
  rw [if_neg (not_or.mpr ⟨hv, hd⟩)]
  rw [List.filter_eq_self.mpr (fun a ha => by
    simp only [bne_iff_ne, ne_eq]
    rintro rfl
    exact hm ha)]

lemma addToHistory_fold_aux :
    ∀ (vs p : List String), (p ++ vs).Nodup → (∀ v ∈ vs, jsTrim v ≠ "") →
      vs.foldl addToHistory (p.reverse.take MAX_HISTORY) =
        (p ++ vs).reverse.take MAX_HISTORY := by
  intro vs
  induction vs with
  | nil => intro p _ _; simp
  | cons v vt ih =>
    intro p hnd hnb
    have hvp : v ∉ p := by
      intro hvp
      exact (List.nodup_append.mp hnd).2.2 hvp (List.mem_cons_self v vt)
    have hstep : addToHistory (p.reverse.take MAX_HISTORY) v =
        (p ++ [v]).reverse.take MAX_HISTORY := by
      rw [addToHistory_not_mem _ v (hnb v (List.mem_cons_self v vt))
        (fun hh => hvp (by
          have hmem := List.mem_of_mem_head? hh
          exact List.mem_reverse.mp (List.mem_of_mem_take hmem)))
        (fun hmem => hvp (List.mem_reverse.mp (List.mem_of_mem_take hmem)))]
      rw [List.reverse_append]
      show (v :: p.reverse.take MAX_HISTORY).take MAX_HISTORY = _
      simp [MAX_HISTORY, List.take_succ_cons, List.take_take]
    simp only [List.foldl_cons, hstep]
    have := ih (p ++ [v]) (by simpa using hnd)
      (fun u hu => hnb u (List.mem_cons_of_mem v hu))
    simpa using this

end TsmCli

namespace TsmCli

/-- C9 counterexample: a 21-entry history list plus a blank value is
    returned unchanged with 21 entries, so `addToHistory` can return a list
    longer than 20. -/
theorem addToHistory_counterexample :
    (addToHistory
      ["a", "b", "c", "d", "e", "f", "g", "h", "i", "j", "k",
       "l", "m", "n", "o", "p", "q", "r", "s", "t", "u"] " ").length > MAX_HISTORY := by
  decide

/-- C9 (amended): folding `addToHistory` over pairwise-distinct non-blank
    values starting from the empty list yields the values most recent
    first, truncated to 20 entries, with no duplicates — in particular
    exactly 20 entries from 25 values.  In general `addToHistory` returns
    a blank value's list unchanged, returns either the input unchanged or a
    list of at most 20 entries (the input itself may be longer when the
    early-return path fires), and puts a non-blank value at the front. -/
theorem addToHistory_props (vs : List String) (hnd : vs.Nodup)
    (hnb : ∀ v ∈ vs, jsTrim v ≠ "") :
    vs.foldl addToHistory [] = vs.reverse.take MAX_HISTORY ∧
    (vs.foldl addToHistory []).Nodup ∧
    (vs.length = 25 → (vs.foldl addToHistory []).length = MAX_HISTORY) ∧
    (∀ entries value, jsTrim value = "" → addToHistory entries value = entries) ∧
    (∀ entries value, addToHistory entries value = entries ∨
      (addToHistory entries value).length ≤ MAX_HISTORY) ∧
    (∀ entries value, jsTrim value ≠ "" →
      (addToHistory entries value).head? = some value) := by
  have hfold : vs.foldl addToHistory [] = vs.reverse.take MAX_HISTORY := by
    have := addToHistory_fold_aux vs [] (by simpa using hnd) hnb
    simpa using this
  refine ⟨hfold, ?_, ?_, ?_, ?_, ?_⟩
  · rw [hfold]
    exact List.Nodup.sublist (List.take_sublist _ _) (List.nodup_reverse.mpr hnd)
  · intro h25
    rw [hfold, List.length_take, List.length_reverse, h25]
    rfl
  · intro entries value hblank
    simp [addToHistory, hblank]
  · intro entries value
    by_cases hc : jsTrim value = "" ∨ entries.head? = some value
    · left
      simp [addToHistory, hc]
    · right
      rw [addToHistory, if_neg hc]
      exact List.length_take_le _ _
  · intro entries value hv
    by_cases hh : entries.head? = some value
    · rw [addToHistory, if_pos (Or.inr hh)]
      exact hh
    · rw [addToHistory, if_neg (not_or.mpr ⟨hv, hh⟩)]
      simp [MAX_HISTORY, List.take_succ_cons]

/-- Witness for the amended C9: 25 distinct non-blank values fold to
    exactly 20 entries. -/
theorem addToHistory_props_witness :
    (["v01", "v02", "v03", "v04", "v05", "v06", "v07", "v08", "v09", "v10",
      "v11", "v12", "v13", "v14", "v15", "v16", "v17", "v18", "v19", "v20",
      "v21", "v22", "v23", "v24", "v25"].foldl addToHistory []).length = MAX_HISTORY :=
  (addToHistory_props
    ["v01", "v02", "v03", "v04", "v05", "v06", "v07", "v08", "v09", "v10",
     "v11", "v12", "v13", "v14", "v15", "v16", "v17", "v18", "v19", "v20",
     "v21", "v22", "v23", "v24", "v25"] (by decide) (by decide)).2.2.1 (by decide)

/-- The push phase of `syncReplaceCommit` (sync-replace.ts): the
    repositories with changes are committed and pushed concurrently; a
    repository whose push throws is collected into `failedRepos`, and the
    state saved afterwards copies, for each failed repository, its entry of
    the previous state (`if (state.modifiedFiles[repoName])` — any present
    array, even empty, is truthy; a missing key is skipped).  The push
    outcome is abstracted by `pushOk`; `Promise.all` completion order only
    permutes `failedRepos`, which does not change any key's entry. -/
def commitPushSave (stateModified : List (String × List String))
    (reposWithChanges : List String) (pushOk : String → Bool) :
    List (String × List String) :=
  let failedRepos := reposWithChanges.filter (fun r => !(pushOk r))
  failedRepos.filterMap (fun r => (stateModified.lookup r).map (fun files => (r, files)))

lemma lookup_eq_none_of_keys {β : Type} (l : List (String × β)) (r : String)
    (h : ∀ p ∈ l, p.1 ≠ r) : l.lookup r = none := by
  induction l with
  | nil => rfl
  | cons p t ih =>
    obtain ⟨k, v⟩ := p
    have hk : (r == k) = false := by
      simp only [beq_eq_false_iff_ne, ne_eq]
      exact fun hh => h (k, v) (List.mem_cons_self _ _) hh.symm
    simp only [List.lookup, hk]
    exact ih (fun q hq => h q (List.mem_cons_of_mem _ hq))

lemma lookup_filterMap_self (st : List (String × List String)) :
    ∀ rs : List String, rs.Nodup → ∀ r ∈ rs,
      (rs.filterMap (fun x => (st.lookup x).map (fun files => (x, files)))).lookup r =
        st.lookup r := by
  intro rs
  induction rs with
  | nil => intro _ r hr; simp at hr
  | cons x t ih =>
    intro hnd r hr
    simp only [List.filterMap_cons]
    rcases List.mem_cons.mp hr with rfl | hr
    · cases hst : st.lookup r with
      | none =>
        simp only [Option.map_none']
        rw [lookup_eq_none_of_keys]
        intro p hp
        obtain ⟨y, hy, hfy⟩ := List.mem_filterMap.mp hp
        obtain ⟨fy, _, rfl⟩ := Option.map_eq_some'.mp hfy
        intro hyr
        exact (List.nodup_cons.mp hnd).1 (hyr ▸ hy)
      | some files =>
        simp only [Option.map_some']
        simp [List.lookup]
    · have hxr : (r == x) = false := by
        simp only [beq_eq_false_iff_ne, ne_eq]
        intro h
        exact (List.nodup_cons.mp hnd).1 (h ▸ hr)
      cases hst : st.lookup x with
      | none =>
        simp only [Option.map_none']
        exact ih (List.nodup_cons.mp hnd).2 r hr
      | some fx =>
        simp only [Option.map_some', List.lookup, hxr]
        exact ih (List.nodup_cons.mp hnd).2 r hr

end TsmCli

namespace TsmCli

/-- C5: after the push phase of `syncReplaceCommit` over the repositories
    with changes, the saved Session State contains exactly the tracked-file
    entries of the repositories whose commit-and-push failed: each failed
    repository keeps its original file list, every successfully pushed
    repository is removed, and repositories outside the batch are absent. -/
theorem commitPushSave_spec (stateModified : List (String × List String))
    (reposWithChanges : List String) (pushOk : String → Bool)
    (hnd : reposWithChanges.Nodup) :
    (∀ r ∈ reposWithChanges, pushOk r = false →
      (commitPushSave stateModified reposWithChanges pushOk).lookup r =
        stateModified.lookup r) ∧
    (∀ r, pushOk r = true →
      (commitPushSave stateModified reposWithChanges pushOk).lookup r = none) ∧
    (∀ r, r ∉ reposWithChanges →
      (commitPushSave stateModified reposWithChanges pushOk).lookup r = none) := by
  refine ⟨?_, ?_, ?_⟩
  · intro r hr hfail
    exact lookup_filterMap_self stateModified
      (reposWithChanges.filter (fun s => !(pushOk s))) (hnd.filter _) r
      (List.mem_filter.mpr ⟨hr, by simp [hfail]⟩)
  · intro r hok
    apply lookup_eq_none_of_keys
    intro p hp
    obtain ⟨y, hy, hfy⟩ := List.mem_filterMap.mp hp
    obtain ⟨fy, _, rfl⟩ := Option.map_eq_some'.mp hfy
    intro hyr
    have hyr2 : y = r := hyr
    have hfil := List.of_mem_filter hy
    rw [hyr2, hok] at hfil
    simp at hfil
  · intro r hout
    apply lookup_eq_none_of_keys
    intro p hp
    obtain ⟨y, hy, hfy⟩ := List.mem_filterMap.mp hp
    obtain ⟨fy, _, rfl⟩ := Option.map_eq_some'.mp hfy
    intro hyr
    have hyr2 : y = r := hyr
    exact hout (hyr2 ▸ List.mem_of_mem_filter hy)

/-- Witness for C5: one succeeding and one failing repository — only the
    failing one remains tracked, with its original file list. -/
theorem commitPushSave_spec_witness :
    (commitPushSave [("alpha", ["f1"]), ("beta", ["f2"])] ["alpha", "beta"]
        (fun r => r == "alpha")).lookup "beta" =
      ([("alpha", ["f1"]), ("beta", ["f2"])] : List (String × List String)).lookup "beta" ∧
    (commitPushSave [("alpha", ["f1"]), ("beta", ["f2"])] ["alpha", "beta"]
        (fun r => r == "alpha")).lookup "alpha" = none :=
  ⟨(commitPushSave_spec [("alpha", ["f1"]), ("beta", ["f2"])] ["alpha", "beta"]
      (fun r => r == "alpha") (by decide)).1 "beta" (by decide) (by decide),
   (commitPushSave_spec [("alpha", ["f1"]), ("beta", ["f2"])] ["alpha", "beta"]
      (fun r => r == "alpha") (by decide)).2.1 "alpha" (by decide)⟩

/-- The per-file decision paths of `syncReplaceReview`: a file is kept
    (pushed onto `keptFiles`) only on an explicit "keep"; "undo", a missing
    diff, and a diff error all skip it. -/
inductive ReviewOutcome
  | keep
  | undo
  | noDiff
  | diffError
deriving DecidableEq

/-- The Session State saved by `syncReplaceReview`: per repository the kept
    files (`keptFiles`), the repository key present only when
    `keptFiles.length > 0`. -/
def reviewSavedState (st : List (String × List String))
    (outcome : String → String → ReviewOutcome) : List (String × List String) :=
  st.filterMap (fun p =>
    if (p.2.filter (fun f => outcome p.1 f == ReviewOutcome.keep)).length > 0 then
      some (p.1, p.2.filter (fun f => outcome p.1 f == ReviewOutcome.keep))
    else none)

/-- The Session State saved at the end of `syncReplace`: the tracked-file
    record with empty entries filtered out
    (`.filter(([, v]) => v.length > 0)`). -/
def syncReplaceSavedState (modified : List (String × List String)) :
    List (String × List String) :=
  modified.filter (fun p => decide (p.2.length > 0))

lemma assoc_eq_of_keys_nodup {β : Type} :
    ∀ (l : List (String × β)), (l.map Prod.fst).Nodup →
      ∀ (a : String) (b c : β), (a, b) ∈ l → (a, c) ∈ l → b = c := by
  intro l
  induction l with
  | nil => intro _ a b c hb _; simp at hb
  | cons p t ih =>
    intro hnd a b c hb hc
    simp only [List.map_cons, List.nodup_cons] at hnd
    rcases List.mem_cons.mp hb with hpb | hb
    · rcases List.mem_cons.mp hc with hpc | hc
      · exact congrArg Prod.snd (hpb.trans hpc.symm)
      · exact absurd (by rw [← hpb]; exact List.mem_map.mpr ⟨(a, c), hc, rfl⟩) hnd.1
    · rcases List.mem_cons.mp hc with hpc | hc
      · exact absurd (by rw [← hpc]; exact List.mem_map.mpr ⟨(a, b), hb, rfl⟩) hnd.1
      · exact ih hnd.2 a b c hb hc

/-- C6: every Session State saved by `syncReplaceReview` (for every state
    and every sequence of review choices) and every Session State saved by
    `syncReplace` maps each repository key to a non-empty file list; in
    particular a repository whose files are all marked "undo" is absent
    from the saved state. -/
theorem savedState_entries_nonempty (st : List (String × List String))
    (outcome : String → String → ReviewOutcome) (r : String) (files : List String)
    (hmem : (r, files) ∈ st)
    (hundo : ∀ f ∈ files, outcome r f = ReviewOutcome.undo)
    (hnd : (st.map Prod.fst).Nodup) :
    (∀ (st' : List (String × List String))
        (outcome' : String → String → ReviewOutcome),
      ∀ p ∈ reviewSavedState st' outcome', p.2 ≠ []) ∧
    (∀ fs, (r, fs) ∉ reviewSavedState st outcome) ∧
    (∀ modified : List (String × List String),
      ∀ p ∈ syncReplaceSavedState modified, p.2 ≠ []) := by
  refine ⟨?_, ?_, ?_⟩
  · intro st' outcome' p hp
    obtain ⟨q, _, hfq⟩ := List.mem_filterMap.mp hp
    by_cases hkept : (q.2.filter (fun f => outcome' q.1 f == ReviewOutcome.keep)).length > 0
    · rw [if_pos hkept] at hfq
      cases hfq
      intro hnil
      have hnil2 : q.2.filter (fun f => outcome' q.1 f == ReviewOutcome.keep) = [] := hnil
      rw [hnil2] at hkept
      simp at hkept
    · rw [if_neg hkept] at hfq
      cases hfq
  · intro fs hin
    obtain ⟨q, hq, hfq⟩ := List.mem_filterMap.mp hin
    by_cases hkept : (q.2.filter (fun f => outcome q.1 f == ReviewOutcome.keep)).length > 0
    · rw [if_pos hkept] at hfq
      have hq1 : q.1 = r := congrArg Prod.fst (Option.some.inj hfq)
      have hmemq : (r, q.2) ∈ st := by
        rw [← hq1]
        simpa using hq
      have hfiles : q.2 = files := assoc_eq_of_keys_nodup st hnd r q.2 files hmemq hmem
      have hkeptnil : q.2.filter (fun f => outcome q.1 f == ReviewOutcome.keep) = [] := by
        rw [List.filter_eq_nil_iff]
        intro f hf
        have hfmem : f ∈ files := hfiles ▸ hf
        rw [hq1, hundo f hfmem]
        simp
      rw [hkeptnil] at hkept
      simp at hkept
    · rw [if_neg hkept] at hfq
      cases hfq
  · intro modified p hp
    have := List.of_mem_filter hp
    simp only [decide_eq_true_eq] at this
    intro hnil
    rw [hnil] at this
    simp at this

/-- Witness for C6: a state whose single repository has every file undone
    is absent from the saved review state. -/
theorem savedState_entries_nonempty_witness :
    ("repoA", ["f1"]) ∉
      reviewSavedState [("repoA", ["f1", "f2"])] (fun _ _ => ReviewOutcome.undo) :=
  (savedState_entries_nonempty [("repoA", ["f1", "f2"])] (fun _ _ => ReviewOutcome.undo)
    "repoA" ["f1", "f2"] (by decide) (fun f _ => rfl) (by decide)).2.1 ["f1"]

/-- The result of one shell command execution in `syncReplaceRun`
    (`$`...`.cwd(repoDir).quiet().throws(false)`). -/
structure ShellResult where
  exitCode : Int
  stdout : String
  stderr : String
deriving DecidableEq

/-- Repository status in `syncReplaceRun`. -/
inductive RunStatus
  | pending
  | running
  | done
  | failed
deriving DecidableEq

/-- One entry of `failedOutputs` of `syncReplaceRun` (stdout/stderr are
    stored trimmed: `result.stdout.toString().trim()`). -/
structure FailedOutput where
  repo : String
  stdout : String
  stderr : String
deriving DecidableEq

/-- `runOne` of `syncReplaceRun`: exit code 0 marks the repository `done`,
    anything else marks it `failed` and records the trimmed stdout and
    stderr in `failedOutputs`. -/
def runOne (exec : String → ShellResult)
    (acc : List (String × RunStatus) × List FailedOutput) (repoName : String) :
    List (String × RunStatus) × List FailedOutput :=
  if (exec repoName).exitCode = 0 then
    (acc.1 ++ [(repoName, RunStatus.done)], acc.2)
  else
    (acc.1 ++ [(repoName, RunStatus.failed)],
     acc.2 ++ [⟨repoName, jsTrim (exec repoName).stdout, jsTrim (exec repoName).stderr⟩])

/-- The worker-pool phase of `syncReplaceRun` over the tracked repository
    names; the bounded concurrency (4 workers) only affects completion
    order, which permutes the recorded lists but not any repository's
    outcome. -/
def runAll (repoNames : List String) (exec : String → ShellResult) :
    List (String × RunStatus) × List FailedOutput :=
  repoNames.foldl (runOne exec) ([], [])

/-- `output.split('\n').filter((l) => l.trim()).slice(-5).join('\n')` of
    the failure reporting in `syncReplaceRun`. -/
def lastFiveNonBlank (output : String) : String :=
  joinNl (((splitNl output).filter (fun l => jsTrim l != "")).drop
    (((splitNl output).filter (fun l => jsTrim l != "")).length - 5))

/-- The failure summary printed for one `failedOutputs` entry:
    `const output = stderr || stdout`, `"(no output)"` when that is empty,
    otherwise its last five non-blank lines. -/
def failureReport (f : FailedOutput) : String :=
  if (if f.stderr ≠ "" then f.stderr else f.stdout) = "" then "(no output)"
  else lastFiveNonBlank (if f.stderr ≠ "" then f.stderr else f.stdout)

/-- The failure summary the C8 spec sentence describes, stated in the
    spec's words: the last five non-blank lines of the *combined*
    stdout/stderr of the command. -/
def specCombinedReport (r : ShellResult) : String :=
  lastFiveNonBlank (r.stdout ++ "\n" ++ r.stderr)

lemma runAll_go (exec : String → ShellResult) :
    ∀ (ns : List String) (s : List (String × RunStatus)) (f : List FailedOutput),
      ns.foldl (runOne exec) (s, f) =
        (s ++ ns.map (fun n =>
            (n, if (exec n).exitCode = 0 then RunStatus.done else RunStatus.failed)),
         f ++ (ns.filter (fun n => !((exec n).exitCode == 0))).map
            (fun n => ⟨n, jsTrim (exec n).stdout, jsTrim (exec n).stderr⟩)) := by
  intro ns
  induction ns with
  | nil => intro s f; simp
  | cons n t ih =>
    intro s f
    simp only [List.foldl_cons, List.map_cons, List.filter_cons]
    by_cases hx : (exec n).exitCode = 0
    · rw [show runOne exec (s, f) n = (s ++ [(n, RunStatus.done)], f) by
        simp [runOne, hx]]
      rw [ih]
      simp [hx]
    · rw [show runOne exec (s, f) n = (s ++ [(n, RunStatus.failed)],
          f ++ [⟨n, jsTrim (exec n).stdout, jsTrim (exec n).stderr⟩]) by
        simp [runOne, hx]]
      rw [ih]
      simp [hx]

lemma lookup_map_self {α : Type} (g : String → α) :
    ∀ (ns : List String) (r : String), r ∈ ns →
      (ns.map (fun n => (n, g n))).lookup r = some (g r) := by
  intro ns
  induction ns with
  | nil => intro r hr; simp at hr
  | cons n t ih =>
    intro r hr
    by_cases hnr : r = n
    · subst hnr
      simp [List.lookup]
    · have hbeq : (r == n) = false := by
        simp only [beq_eq_false_iff_ne, ne_eq]
        exact hnr
      simp only [List.map_cons, List.lookup, hbeq]
      exact ih r (List.mem_cons.mp hr |>.resolve_left hnr)

end TsmCli

namespace TsmCli

/-- C8 counterexample: the code reports the last five non-blank lines of
    stderr alone when stderr is non-empty (`stderr || stdout`), not of the
    combined stdout/stderr: with stdout `"out1"` and stderr `"err1"` it
    prints `"err1"` while the combined output's last five non-blank lines
    are `"out1\nerr1"`. -/
theorem runFailure_summary_counterexample :
    (runAll ["r"] (fun _ => ⟨1, "out1", "err1"⟩)).2 = [⟨"r", "out1", "err1"⟩] ∧
    failureReport ⟨"r", "out1", "err1"⟩ ≠ specCombinedReport ⟨1, "out1", "err1"⟩ := by
  constructor
  · decide
  · decide

/-- C8 (amended): a tracked repository's outcome in `syncReplaceRun` is
    `done` exactly when the executed command's exit code is zero, otherwise
    `failed`, with the trimmed stdout/stderr recorded; the reported failure
    summary is the last five non-blank lines of the trimmed stderr when it
    is non-empty, otherwise of the trimmed stdout, or `"(no output)"` when
    both are blank. -/
theorem runAll_outcome (repoNames : List String) (exec : String → ShellResult)
    (r : String) (hmem : r ∈ repoNames) :
    ((runAll repoNames exec).1.lookup r = some RunStatus.done ↔
      (exec r).exitCode = 0) ∧
    ((runAll repoNames exec).1.lookup r = some RunStatus.failed ↔
      ¬ (exec r).exitCode = 0) ∧
    ((exec r).exitCode = 0 → ∀ fo ∈ (runAll repoNames exec).2, fo.repo ≠ r) ∧
    (¬ (exec r).exitCode = 0 →
      (⟨r, jsTrim (exec r).stdout, jsTrim (exec r).stderr⟩ : FailedOutput) ∈
        (runAll repoNames exec).2 ∧
      failureReport ⟨r, jsTrim (exec r).stdout, jsTrim (exec r).stderr⟩ =
        (if jsTrim (exec r).stderr ≠ "" then
          lastFiveNonBlank (jsTrim (exec r).stderr)
         else if jsTrim (exec r).stdout = "" then "(no output)"
         else lastFiveNonBlank (jsTrim (exec r).stdout))) := by
  have hfold := runAll_go exec repoNames [] []
  have hfst : (runAll repoNames exec).1 = repoNames.map (fun n =>
      (n, if (exec n).exitCode = 0 then RunStatus.done else RunStatus.failed)) := by
    rw [runAll, hfold]
    simp
  have hsnd : (runAll repoNames exec).2 =
      (repoNames.filter (fun n => !((exec n).exitCode == 0))).map
        (fun n => ⟨n, jsTrim (exec n).stdout, jsTrim (exec n).stderr⟩) := by
    rw [runAll, hfold]
    simp
  have hlook := lookup_map_self
    (fun n => if (exec n).exitCode = 0 then RunStatus.done else RunStatus.failed)
    repoNames r hmem
  refine ⟨?_, ?_, ?_, ?_⟩
  · rw [hfst, hlook]
    by_cases hx : (exec r).exitCode = 0
    · simp [hx]
    · simp [hx]
  · rw [hfst, hlook]
    by_cases hx : (exec r).exitCode = 0
    · simp [hx]
    · simp [hx]
  · intro hx fo hfo
    rw [hsnd] at hfo
    obtain ⟨n, hn, rfl⟩ := List.mem_map.mp hfo
    have hfil := List.of_mem_filter hn
    intro hfr
    have hnr : n = r := hfr
    rw [hnr, hx] at hfil
    simp at hfil
  · intro hx
    constructor
    · rw [hsnd]
      refine List.mem_map.mpr ⟨r, List.mem_filter.mpr ⟨hmem, ?_⟩, rfl⟩
      simp [hx]
    · rw [failureReport]
      by_cases he : jsTrim (exec r).stderr = ""
      · simp only [he]
        by_cases ho : jsTrim (exec r).stdout = ""
        · simp [ho]
        · simp [ho]
      · simp [he]

/-- Witness for the amended C8 on a concrete failing command. -/
theorem runAll_outcome_witness :
    (⟨"r", "out1", "err1"⟩ : FailedOutput) ∈
      (runAll ["r"] (fun _ => ⟨1, "out1", "err1"⟩)).2 :=
  ((runAll_outcome ["r"] (fun _ => ⟨1, "out1", "err1"⟩) "r"
    (by decide)).2.2.2 (by decide)).1

/-- The outcome of reading a persisted JSON file: the file may be missing
    (`file.exists()` is false), reading or parsing may throw (caught by the
    surrounding `try/catch`), or it parses to a value. -/
inductive DiskRead (α : Type)
  | missing
  | readError
  | val (a : α)

/-- `interface SyncReplaceState` of sync-replace.ts. -/
structure SyncReplaceState where
  modifiedFiles : List (String × List String)

/-- `interface InputHistory` of sync-replace.ts. -/
structure InputHistory where
  startPattern : List String
  endPattern : List String
  replacement : List String
  filePattern : List String

/-- `loadState()` of sync-replace.ts: the parsed file content when the file
    exists and parses, the empty default state `{ modifiedFiles: {} }` when
    it is missing or reading/parsing throws. -/
def loadState (d : DiskRead SyncReplaceState) : SyncReplaceState :=
  match d with
  | DiskRead.val s => s
  | DiskRead.missing => ⟨[]⟩
  | DiskRead.readError => ⟨[]⟩

/-- `loadHistory()` of sync-replace.ts: four empty history lists when the
    file is missing or reading/parsing throws. -/
def loadHistory (d : DiskRead InputHistory) : InputHistory :=
  match d with
  | DiskRead.val h => h
  | DiskRead.missing => ⟨[], [], [], []⟩
  | DiskRead.readError => ⟨[], [], [], []⟩

/-- C10: `loadState` returns the empty default state (and `loadHistory`
    four empty lists) whenever the on-disk file does not exist or
    reading/parsing it throws; a missing or corrupt persisted file never
    raises to the caller and silently resets the session to empty. -/
theorem load_defaults (d : DiskRead SyncReplaceState) (d2 : DiskRead InputHistory)
    (h : d = DiskRead.missing ∨ d = DiskRead.readError)
    (h2 : d2 = DiskRead.missing ∨ d2 = DiskRead.readError) :
    loadState d = ⟨[]⟩ ∧ loadHistory d2 = ⟨[], [], [], []⟩ := by
  rcases h with rfl | rfl <;> rcases h2 with rfl | rfl <;> exact ⟨rfl, rfl⟩

/-- Witness for C10: a missing state file and a corrupt history file both
    load as the empty defaults. -/
theorem load_defaults_witness :
    loadState DiskRead.missing = ⟨[]⟩ ∧
    loadHistory DiskRead.readError = ⟨[], [], [], []⟩ :=
  load_defaults DiskRead.missing DiskRead.readError (Or.inl rfl) (Or.inr rfl)

end TsmCli
